import Mathlib

/-!
Verification of the STM32 OTGv1 USB low-level driver packet engine
(`usb_lld.c`): FIFO RAM allocator, packet transfer primitives over the
hardware FIFO, and the transmit fill engine.

The hardware FIFO register is modelled as a stream of 32-bit words:
writes accumulate a `List ℕ` of pushed words, reads consume an indexed
stream `ℕ → ℕ`.  Machine words are naturals; bytes are naturals `< 256`
(`uint8_t` buffer contents).  Loops from the C source are embedded as
fuel-indexed recursive functions returning `Option`; `none` means the
fuel bound was reached, and the theorems show the fuel actually used is
sufficient on every valid queue state.
-/

/-- Modelled from the spec: the receive FIFO region size in bytes
(`STM32_USB_OTG1_RX_FIFO_SIZE`).  The configuration header defining this
constant is not among the sources; the spec fixes a receive FIFO region
at the bottom of the FIFO RAM whose word boundary becomes the allocator
reset value.  512 bytes is the platform default configuration. -/
def STM32_USB_OTG1_RX_FIFO_SIZE : ℕ := 512

/-- Modelled from the spec: total FIFO RAM capacity in words
(`STM32_OTG_FIFO_MEM_SIZE`), a platform constant not among the sources
(1.25 KiB = 320 words on the OTG-FS core).  Only the fact that it is a
fixed constant matters to the claims below. -/
def STM32_OTG_FIFO_MEM_SIZE : ℕ := 320

/-- The queue success message (`Q_OK`) written into each woken thread's
`p_u.rdymsg`. -/
def Q_OK : ℕ := 0

/-- Function `otg_ram_reset`: resets the FIFO RAM allocator.  The driver state's
`pmnext` field becomes the word boundary following the RX FIFO region. -/
def otg_ram_reset : ℕ := STM32_USB_OTG1_RX_FIFO_SIZE / 4

/-- Function `otg_ram_alloc`: allocates a block from the FIFO RAM.  State is the
`pmnext` field; the function returns the pre-advance value `next` and
the advanced state `pmnext + size`. -/
def otg_ram_alloc (pmnext size : ℕ) : ℕ × ℕ := (pmnext, pmnext + size)

/-- The `chDbgAssert` condition checked (in debug builds only) after
`otg_ram_alloc` advances `pmnext`: `pmnext <= STM32_OTG_FIFO_MEM_SIZE`. -/
def otg_ram_alloc_assert (pmnext : ℕ) : Prop := pmnext ≤ STM32_OTG_FIFO_MEM_SIZE

/-- Runs a sequence of `otg_ram_alloc` calls from allocator state `pm`,
collecting the returned offsets and the final `pmnext`. -/
def allocRun (pm : ℕ) : List ℕ → List ℕ × ℕ
  | [] => ([], pm)
  | s :: ss =>
    let a := otg_ram_alloc pm s
    let r := allocRun a.2 ss
    (a.1 :: r.1, r.2)

/-- The `pmnext` values observed immediately after each call of a
`otg_ram_alloc` sequence (the values the debug assertion inspects). -/
def allocStates (pm : ℕ) : List ℕ → List ℕ
  | [] => []
  | s :: ss => (otg_ram_alloc pm s).2 :: allocStates (otg_ram_alloc pm s).2 ss

/-- Function `usb_lld_prepare_transmit`: the `DIEPTSIZ` programming, returned as
the pair (packet count `PKTCNT`, transfer size `XFRSIZ`).  A zero-size
transmit is the special case `PKTCNT(1) | XFRSIZ(0)`. -/
def usb_lld_prepare_transmit (txsize maxsize : ℕ) : ℕ × ℕ :=
  if txsize = 0 then (1, 0) else ((txsize + maxsize - 1) / maxsize, txsize)

/-- Function `otg_txfifo_handler`: the transmit fill engine loop for one endpoint.
`maxsize` is `in_maxsize`; `freeW j` is the `DTXFSTS.INEPTFSAV` word count
the hardware reports at the loop's `j`-th space check (the register is
re-read on every iteration); `txsize`/`txcnt` are the transfer state.
The data movement of `otg_fifo_write_from_queue` / `_from_buffer` is
recorded as the list of pushed packet sizes in bytes.  Returns the
`bool_t` result, the final `txcnt`, and the pushed packet sizes;
`none` if the fuel bound is reached. -/
def otg_txfifo_handler (maxsize : ℕ) (freeW : ℕ → ℕ) :
    ℕ → ℕ → ℕ → Option (Bool × ℕ × List ℕ)
  | 0, _, _ => none
  | fuel + 1, txsize, txcnt =>
    if txsize ≤ txcnt then some (true, txcnt, [])
    else
      let n := min maxsize (txsize - txcnt)
      if freeW 0 * 4 < n then some (false, txcnt, [])
      else
        match otg_txfifo_handler maxsize (fun k => freeW (k + 1)) fuel txsize (txcnt + n) with
        | none => none
        | some (done, c, ps) => some (done, c, n :: ps)

/-- The little-endian bytes of word `w` at byte positions `i, i+1, ...,
i+m-1`: byte `j` is `(uint8_t)(w >> ((i+j)*8))`. -/
def ubytes (w i m : ℕ) : List ℕ :=
  (List.range m).map (fun j => (w >>> (8 * (i + j))) % 256)

/-- Loop body of `otg_fifo_read_to_buffer` after both counts have been
rounded to words: `nw` words remain to pop, `maxw` words may still be
stored; `k` indexes the FIFO word stream and `out` accumulates the bytes
stored into `buf` (each stored word contributes its 4 bytes). -/
def read_to_buffer_go (stream : ℕ → ℕ) : ℕ → ℕ → ℕ → List ℕ → List ℕ × ℕ
  | 0, _, k, out => (out, k)
  | nw + 1, maxw, k, out =>
    let w := stream k
    if 0 < maxw then read_to_buffer_go stream nw (maxw - 1) (k + 1) (out ++ ubytes w 0 4)
    else read_to_buffer_go stream nw maxw (k + 1) out

/-- Function `otg_fifo_read_to_buffer`: pops `(n+3)/4` words from the RX FIFO
word stream, storing words into the destination while `(mx+3)/4` word
stores remain.  Returns the bytes written to the destination and the
number of words popped. -/
def otg_fifo_read_to_buffer (stream : ℕ → ℕ) (n mx : ℕ) : List ℕ × ℕ :=
  read_to_buffer_go stream ((n + 3) / 4) ((mx + 3) / 4) 0 []

/-- Pointer increment `ptr++` with circular wrap against a buffer of `len` bytes: the
source increments the pointer and resets it to the buffer base when it
reaches `q_top`. -/
def wrapInc (len p : ℕ) : ℕ := if len ≤ p + 1 then 0 else p + 1

/-- Little-endian word value of a byte list: `packBytes [b0, b1, ...] =
b0 + 256*b1 + ...` — the value `*(uint32_t *)p` reads from LSB-first
memory holding those bytes (missing high bytes are zero). -/
def packBytes : List ℕ → ℕ
  | [] => 0
  | b :: bs => b + 256 * packBytes bs

/-- The word assembled by the one-byte-at-a-time accumulation
`w |= b << (i * 8)` over a byte list starting at byte index `i`. -/
def lorBytes (i : ℕ) : List ℕ → ℕ
  | [] => 0
  | b :: bs => (b <<< (8 * i)) ||| lorBytes (i + 1) bs

/-- The `k` consecutive bytes of a circular buffer starting at offset `rd`,
indices taken mod the buffer length. -/
def modBytes (buf : List ℕ) (rd k : ℕ) : List ℕ :=
  (List.range k).map (fun j => buf.getD ((rd + j) % buf.length) 0)

/-- The `k` consecutive bytes of a buffer starting at offset `off`, without
wrap (valid when `off + k` is within the buffer). -/
def contigBytes (buf : List ℕ) (off k : ℕ) : List ℕ :=
  (List.range k).map (fun j => buf.getD (off + j) 0)

/-- Groups a byte sequence into LSB-first 32-bit words of 4 bytes each,
the final word zero-padded — the word stream a whole transfer of those
bytes produces on the FIFO. -/
def packWords : List ℕ → List ℕ
  | [] => []
  | b :: bs => packBytes (b :: bs.take 3) :: packWords (bs.drop 3)
termination_by l => l.length
decreasing_by simp [List.length_drop]; omega

/-- Writes a byte list into a circular buffer starting at offset `wr`,
one byte at a time with wrap; returns the new buffer and final cursor. -/
def writeWrapP : List ℕ → ℕ → List ℕ → List ℕ × ℕ
  | buf, wr, [] => (buf, wr)
  | buf, wr, b :: bs => writeWrapP (buf.set wr b) (wrapInc buf.length wr) bs

/-- The first `n` bytes delivered by unpacking a FIFO word stream in
LSB-first order: byte `j` comes from word `j / 4`, byte lane `j % 4`. -/
def unpackStream (stream : ℕ → ℕ) (n : ℕ) : List ℕ :=
  if n = 0 then []
  else ubytes (stream 0) 0 (min 4 n) ++ unpackStream (fun j => stream (j + 1)) (n - min 4 n)
termination_by n
decreasing_by omega

/-- Structure `OutputQueue`: the fields of the ChibiOS output queue the driver
touches — byte buffer (`q_buffer`/`q_top` give its extent), read cursor
`q_rdptr` as an offset, the byte counter `q_counter` and the waiting
thread list `q_waiting` (threads by id). -/
structure OutputQueue where
  buf : List ℕ
  rd : ℕ
  counter : ℕ
  waiting : List ℕ
deriving DecidableEq

/-- The inner one-byte-at-a-time loop of `otg_fifo_write_from_queue`:
`w |= *q_rdptr++ << (i * 8)` with per-byte wrap, while `ntogo > 0 && i < 4`.
Arguments and results are (rd, ntogo, w). -/
def oq_byte_go (buf : List ℕ) : ℕ → ℕ → ℕ → ℕ → ℕ × ℕ × ℕ
  | rd, 0, _, w => (rd, 0, w)
  | rd, n + 1, i, w =>
    if i < 4 then
      oq_byte_go buf (wrapInc buf.length rd) n (i + 1) (w ||| (buf.getD rd 0 <<< (8 * i)))
    else (rd, n + 1, w)

/-- The outer loop of `otg_fifo_write_from_queue`.  Each iteration: if at
least one whole word remains, push `streak = min (ntogo/4) nw2end` words
contiguously (`otg_do_push` reads LSB-first words from queue memory),
where `nw2end = (q_top - q_rdptr) / 4`; wrap and `continue` if the read
cursor reached `q_top`; otherwise finish a partial word one byte at a
time.  Returns the final read cursor and the accumulated pushed words. -/
def oq_write_go (buf : List ℕ) : ℕ → ℕ → ℕ → List ℕ → Option (ℕ × List ℕ)
  | 0, _, _, _ => none
  | fuel + 1, rd, ntogo, ws =>
    if ntogo = 0 then some (rd, ws)
    else if 0 < ntogo / 4 then
      let streak := min (ntogo / 4) ((buf.length - rd) / 4)
      let ws1 := ws ++ (List.range streak).map (fun j => packBytes (contigBytes buf (rd + 4 * j) 4))
      let rd1 := rd + 4 * streak
      let ntogo1 := ntogo - streak * 4
      if buf.length ≤ rd1 then oq_write_go buf fuel 0 ntogo1 ws1
      else if ntogo1 = 0 then some (rd1, ws1)
      else
        let r := oq_byte_go buf rd1 ntogo1 0 0
        oq_write_go buf fuel r.1 r.2.1 (ws1 ++ [r.2.2])
    else
      let r := oq_byte_go buf rd ntogo 0 0
      oq_write_go buf fuel r.1 r.2.1 (ws ++ [r.2.2])

/-- Function `otg_fifo_write_from_queue`: moves `n` bytes from the output queue
to the endpoint's TX FIFO, then (under `chSysLock`) adds `n` to
`q_counter` and readies every thread on `q_waiting` with message `Q_OK`.
Returns the final queue, the pushed FIFO words, and the (thread, message)
wake list; `none` if the loop fuel is exhausted. -/
def otg_fifo_write_from_queue (oqp : OutputQueue) (n : ℕ) :
    Option (OutputQueue × List ℕ × List (ℕ × ℕ)) :=
  match oq_write_go oqp.buf (n + 1) oqp.rd n [] with
  | none => none
  | some (rd1, ws) =>
    some (⟨oqp.buf, rd1, oqp.counter + n, []⟩, ws, oqp.waiting.map (fun t => (t, Q_OK)))

/-- Structure `InputQueue`: the fields of the ChibiOS input queue the driver
touches — byte buffer, write cursor `q_wrptr` as an offset, byte counter
and waiting thread list. -/
structure InputQueue where
  buf : List ℕ
  wr : ℕ
  counter : ℕ
  waiting : List ℕ
deriving DecidableEq

/-- Function `otg_do_pop` writing into queue memory: pops `s` words from the FIFO
stream at index `k` and stores each as 4 LSB-first bytes at offsets
`p, p+4, ...`.  Returns the new buffer, pointer and stream index. -/
def do_pop_mem (stream : ℕ → ℕ) : List ℕ → ℕ → ℕ → ℕ → List ℕ × ℕ × ℕ
  | buf, p, k, 0 => (buf, p, k)
  | buf, p, k, s + 1 =>
    let w := stream k
    do_pop_mem stream
      ((((buf.set p (w % 256)).set (p + 1) ((w >>> 8) % 256)).set (p + 2)
          ((w >>> 16) % 256)).set (p + 3) ((w >>> 24) % 256))
      (p + 4) (k + 1) s

/-- The inner one-byte-at-a-time loop of `otg_fifo_read_to_queue`:
`*q_wrptr++ = (uint8_t)(w >> (i * 8))` with per-byte wrap, while
`ntogo > 0 && i < 4`.  Arguments and results are (buf, wr, ntogo). -/
def iq_byte_go (w : ℕ) : List ℕ → ℕ → ℕ → ℕ → List ℕ × ℕ × ℕ
  | buf, wr, 0, _ => (buf, wr, 0)
  | buf, wr, n + 1, i =>
    if i < 4 then
      iq_byte_go w (buf.set wr ((w >>> (8 * i)) % 256)) (wrapInc buf.length wr) n (i + 1)
    else (buf, wr, n + 1)

/-- The outer loop of `otg_fifo_read_to_queue`, embedded verbatim,
including the defective words-until-wrap computation of the source:
`nw2end = (iqp->q_wrptr - iqp->q_wrptr) / 4`, the write cursor minus
itself.  `k` indexes the FIFO word stream.  Returns the final buffer,
write cursor and stream index (= words popped so far). -/
def iq_read_go (stream : ℕ → ℕ) : ℕ → List ℕ → ℕ → ℕ → ℕ → Option (List ℕ × ℕ × ℕ)
  | 0, _, _, _, _ => none
  | fuel + 1, buf, wr, ntogo, k =>
    if ntogo = 0 then some (buf, wr, k)
    else if 0 < ntogo / 4 then
      let streak := min (ntogo / 4) ((wr - wr) / 4)
      let pr := do_pop_mem stream buf wr k streak
      let ntogo1 := ntogo - streak * 4
      if pr.1.length ≤ pr.2.1 then iq_read_go stream fuel pr.1 0 ntogo1 pr.2.2
      else if ntogo1 = 0 then some (pr.1, pr.2.1, pr.2.2)
      else
        let r := iq_byte_go (stream pr.2.2) pr.1 pr.2.1 ntogo1 0
        iq_read_go stream fuel r.1 r.2.1 r.2.2 (pr.2.2 + 1)
    else
      let r := iq_byte_go (stream k) buf wr ntogo 0
      iq_read_go stream fuel r.1 r.2.1 r.2.2 (k + 1)

/-- Function `otg_fifo_read_to_queue`: pops `n` bytes' worth of words from the RX
FIFO stream into the input queue, then (under `chSysLock`) adds `n` to
`q_counter` and readies every thread on `q_waiting` with message `Q_OK`.
Returns the final queue, the number of words popped, and the
(thread, message) wake list; `none` if the loop fuel is exhausted. -/
def otg_fifo_read_to_queue (stream : ℕ → ℕ) (iqp : InputQueue) (n : ℕ) :
    Option (InputQueue × ℕ × List (ℕ × ℕ)) :=
  match iq_read_go stream (n + 1) iqp.buf iqp.wr n 0 with
  | none => none
  | some (buf1, wr1, k1) =>
    some (⟨buf1, wr1, iqp.counter + n, []⟩, k1, iqp.waiting.map (fun t => (t, Q_OK)))

/-- Reference model for the OUT FIFO drain, following the claim's words:
a pure byte-at-a-time copy loop — byte `j` of the popped word stream is
written at the wrapping write cursor, one word popped per 4 bytes
(`(n+3)/4` in total), followed by the same counter/wake bookkeeping. -/
def read_to_queue_bytewise (stream : ℕ → ℕ) (iqp : InputQueue) (n : ℕ) :
    InputQueue × ℕ × List (ℕ × ℕ) :=
  let p := writeWrapP iqp.buf iqp.wr (unpackStream stream n)
  (⟨p.1, p.2, iqp.counter + n, []⟩, (n + 3) / 4, iqp.waiting.map (fun t => (t, Q_OK)))

/-! ## Arithmetic and list helper lemmas -/

theorem lor_shiftLeft_eq_add {a : ℕ} (b n : ℕ) (h : a < 2 ^ n) :
    a ||| (b <<< n) = a + b * 2 ^ n := by
  apply Nat.eq_of_testBit_eq
  intro i
  rcases Nat.lt_or_ge i n with h1 | h1
  · have e1 : (a + b * 2 ^ n) % 2 ^ n = a := by
      rw [Nat.add_mul_mod_self_right]
      exact Nat.mod_eq_of_lt h
    have e2 := Nat.testBit_mod_two_pow (a + b * 2 ^ n) n i
    rw [e1] at e2
    have e3 : Nat.testBit a i = Nat.testBit (a + b * 2 ^ n) i := by
      rw [e2]; simp [h1]
    rw [Nat.testBit_or, Nat.testBit_shiftLeft]
    have : ¬ (i ≥ n) := by omega
    simp [this, e3]
  · have ha : Nat.testBit a i = false :=
      Nat.testBit_lt_two_pow (lt_of_lt_of_le h (Nat.pow_le_pow_right (by omega) h1))
    have hdiv : (a + b * 2 ^ n) / 2 ^ n = b := by
      rw [Nat.add_mul_div_right _ _ (Nat.two_pow_pos n), Nat.div_eq_of_lt h, Nat.zero_add]
    have e4 := Nat.testBit_shiftRight (a + b * 2 ^ n) (i := n) (j := i - n)
    rw [Nat.shiftRight_eq_div_pow, hdiv] at e4
    have e5 : Nat.testBit (a + b * 2 ^ n) i = Nat.testBit b (i - n) := by
      rw [e4]; congr 1; omega
    rw [Nat.testBit_or, Nat.testBit_shiftLeft, ha, e5]
    simp [h1]

/-! ## FIFO allocator lemmas -/

theorem allocRun_snd : ∀ (ss : List ℕ) (pm : ℕ), (allocRun pm ss).2 = pm + ss.sum := by
  intro ss
  induction ss with
  | nil => intro pm; simp [allocRun]
  | cons s ss ih => intro pm; simp [allocRun, otg_ram_alloc, ih]; omega

theorem allocRun_offsets_ge : ∀ (ss : List ℕ) (pm : ℕ),
    ∀ x ∈ (allocRun pm ss).1, pm ≤ x := by
  intro ss
  induction ss with
  | nil => intro pm x hx; simp [allocRun] at hx
  | cons s ss ih =>
    intro pm x hx
    simp [allocRun, otg_ram_alloc] at hx
    rcases hx with h | h
    · omega
    · have := ih (pm + s) x h; omega

theorem allocRun_pairwise : ∀ (ss : List ℕ) (pm : ℕ), (∀ s ∈ ss, 0 < s) →
    List.Pairwise (· < ·) (allocRun pm ss).1 := by
  intro ss
  induction ss with
  | nil => intro pm _; simp [allocRun]
  | cons s ss ih =>
    intro pm hpos
    simp only [allocRun, otg_ram_alloc]
    refine List.Pairwise.cons ?_ (ih (pm + s) (fun t ht => hpos t (by simp [ht])))
    intro x hx
    have h1 := allocRun_offsets_ge ss (pm + s) x hx
    have h2 : 0 < s := hpos s (by simp)
    omega

theorem allocStates_le : ∀ (ss : List ℕ) (pm : ℕ),
    ∀ x ∈ allocStates pm ss, x ≤ pm + ss.sum := by
  intro ss
  induction ss with
  | nil => intro pm x hx; simp [allocStates] at hx
  | cons s ss ih =>
    intro pm x hx
    simp only [allocStates, otg_ram_alloc, List.mem_cons] at hx
    rcases hx with h | h
    · subst h; simp only [List.sum_cons]; omega
    · have := ih (pm + s) x h; simp only [List.sum_cons]; omega

/-- Claim C4 (amended): within one activation cycle each `otg_ram_alloc`
call returns the pre-advance `pmnext`; when every requested size is
positive the returned offsets are strictly increasing; and when the
total requested size fits below the capacity constant (equivalently,
when the debug assertion passes on every call) every intermediate
`pmnext` stays within `STM32_OTG_FIFO_MEM_SIZE`.  The capacity bound is
checked only by the debug assertion, not enforced by the code. -/
theorem alloc_monotonic_bounded (sizes : List ℕ)
    (hpos : ∀ s ∈ sizes, 0 < s)
    (hfit : otg_ram_reset + sizes.sum ≤ STM32_OTG_FIFO_MEM_SIZE) :
    (∀ pm s, (otg_ram_alloc pm s).1 = pm) ∧
    List.Pairwise (· < ·) (allocRun otg_ram_reset sizes).1 ∧
    (allocRun otg_ram_reset sizes).2 = otg_ram_reset + sizes.sum ∧
    (∀ pm ∈ allocStates otg_ram_reset sizes, otg_ram_alloc_assert pm) := by
  refine ⟨fun pm s => rfl, allocRun_pairwise sizes otg_ram_reset hpos,
    allocRun_snd sizes otg_ram_reset, fun pm hpm => ?_⟩
  have := allocStates_le sizes otg_ram_reset pm hpm
  unfold otg_ram_alloc_assert
  omega

theorem alloc_monotonic_bounded_witness :
    (∀ pm s, (otg_ram_alloc pm s).1 = pm) ∧
    List.Pairwise (· < ·) (allocRun otg_ram_reset [16, 32]).1 ∧
    (allocRun otg_ram_reset [16, 32]).2 = otg_ram_reset + ([16, 32] : List ℕ).sum ∧
    (∀ pm ∈ allocStates otg_ram_reset [16, 32], otg_ram_alloc_assert pm) :=
  alloc_monotonic_bounded [16, 32] (by decide) (by decide)

/-- Counterexample to claim C4 as stated: the single-allocation sequence
requesting 321 words returns offset 128 whose end `128 + 321 = 449`
exceeds the FIFO capacity constant (320 words); `otg_ram_alloc` performs
no check outside the debug assertion, so "the last returned offset plus
its size never exceeds the FIFO capacity constant" is false for this
sequence. -/
theorem alloc_capacity_exceeded_counterexample :
    (allocRun otg_ram_reset [321]).1 = [otg_ram_reset] ∧
    ¬ otg_ram_alloc_assert ((allocRun otg_ram_reset [321]).2) := by
  constructor
  · rfl
  · unfold otg_ram_alloc_assert
    decide

/-- Claim C5 (amended): from a freshly reset allocator, allocations of 16
then 32 words return the reset base and base + 16, and `pmnext` ends at
base + 48, where the base is the word boundary after the RX FIFO region
(`STM32_USB_OTG1_RX_FIFO_SIZE / 4`), not zero. -/
theorem alloc_two_blocks_relative :
    allocRun otg_ram_reset [16, 32] =
      ([otg_ram_reset, otg_ram_reset + 16], otg_ram_reset + 48) := by
  decide

/-- Counterexample to claim C5 as stated: after `otg_ram_reset` the
allocator does not start at zero — the two calls return offsets 128 and
144 with `pmnext = 176`, not offsets 0 and 16 with `pmnext = 48`. -/
theorem alloc_two_blocks_not_zero_based :
    allocRun otg_ram_reset [16, 32] ≠ ([0, 16], 48) := by
  decide

/-- Claim C10: `otg_ram_alloc` advances `pmnext` before any capacity
check; on an allocation whose end exceeds the capacity the state is left
advanced past capacity, the pre-increment offset is still returned, the
overflow is caught only by the debug-build assertion condition, and the
state is not rolled back. -/
theorem alloc_overflow_no_rollback (pm s : ℕ)
    (h : STM32_OTG_FIFO_MEM_SIZE < pm + s) :
    otg_ram_alloc pm s = (pm, pm + s) ∧
    ¬ otg_ram_alloc_assert ((otg_ram_alloc pm s).2) := by
  refine ⟨rfl, ?_⟩
  unfold otg_ram_alloc otg_ram_alloc_assert
  omega

theorem alloc_overflow_no_rollback_witness :
    otg_ram_alloc otg_ram_reset 193 = (otg_ram_reset, otg_ram_reset + 193) ∧
    ¬ otg_ram_alloc_assert ((otg_ram_alloc otg_ram_reset 193).2) :=
  alloc_overflow_no_rollback otg_ram_reset 193 (by decide)

/-! ## Transmit fill engine lemmas -/

theorem txfifo_step_done {M fuel txsize txcnt : ℕ} {f : ℕ → ℕ} (hc : txsize ≤ txcnt) :
    otg_txfifo_handler M f (fuel + 1) txsize txcnt = some (true, txcnt, []) := by
  rw [otg_txfifo_handler]
  simp [hc]

theorem txfifo_step_nospace {M fuel txsize txcnt : ℕ} {f : ℕ → ℕ}
    (hc : ¬ txsize ≤ txcnt) (hf : f 0 * 4 < min M (txsize - txcnt)) :
    otg_txfifo_handler M f (fuel + 1) txsize txcnt = some (false, txcnt, []) := by
  rw [otg_txfifo_handler]
  simp [hc, hf]

theorem txfifo_step_push {M fuel txsize txcnt : ℕ} {f : ℕ → ℕ}
    (hc : ¬ txsize ≤ txcnt) (hf : ¬ f 0 * 4 < min M (txsize - txcnt)) :
    otg_txfifo_handler M f (fuel + 1) txsize txcnt =
      (otg_txfifo_handler M (fun k => f (k + 1)) fuel txsize
          (txcnt + min M (txsize - txcnt))).map
        (fun r => (r.1, r.2.1, min M (txsize - txcnt) :: r.2.2)) := by
  rw [otg_txfifo_handler]
  simp only [if_neg hc, if_neg hf]
  rcases h : otg_txfifo_handler M (fun k => f (k + 1)) fuel txsize
      (txcnt + min M (txsize - txcnt)) with _ | ⟨d, c, ps⟩ <;> simp [h]

theorem ceil_div_one_max {M : ℕ} (_hM : 0 < M) (d : ℕ) (h1 : 0 < d) (h2 : d ≤ M) :
    (d + M - 1) / M = 1 :=
  Nat.div_eq_of_lt_le (by omega) (by omega)

theorem ceil_div_zero {M : ℕ} (hM : 0 < M) : (0 + M - 1) / M = 0 :=
  Nat.div_eq_of_lt (by omega)

theorem ceil_div_step {M : ℕ} (hM : 0 < M) (d : ℕ) (hd : 0 < d) :
    (d + M - 1) / M = (d - min M d + M - 1) / M + 1 := by
  rcases le_or_lt d M with h | h
  · have e1 : d - min M d = 0 := by omega
    rw [e1, ceil_div_zero hM, ceil_div_one_max hM d hd h]
  · have e1 : d - min M d = d - M := by omega
    have e2 : d + M - 1 = (d - M + M - 1) + M := by omega
    rw [e1, e2, Nat.add_div_right _ hM]

theorem txfifo_unlimited (M : ℕ) (hM : 0 < M) : ∀ (fuel T c : ℕ), T - c < fuel → c ≤ T →
    ∃ ps : List ℕ, otg_txfifo_handler M (fun _ => M + T) fuel T c = some (true, T, ps) ∧
      ps.length = (T - c + M - 1) / M := by
  intro fuel
  induction fuel with
  | zero => intro T c h1 h2; omega
  | succ fuel ih =>
    intro T c h1 h2
    rcases le_or_lt T c with hc | hc
    · have hce : c = T := by omega
      subst hce
      refine ⟨[], txfifo_step_done (by omega), ?_⟩
      rw [Nat.sub_self]
      simp [Nat.div_eq_of_lt (show M - 1 < M by omega)]
    · have hn1 : 0 < min M (T - c) := by omega
      have hf : ¬ (M + T) * 4 < min M (T - c) := by omega
      obtain ⟨ps, hps, hlen⟩ := ih T (c + min M (T - c)) (by omega) (by omega)
      refine ⟨min M (T - c) :: ps, ?_, ?_⟩
      · rw [txfifo_step_push (by omega) hf]
        have hsh : (fun k : ℕ => (fun _ : ℕ => M + T) (k + 1)) = (fun _ : ℕ => M + T) := rfl
        rw [hsh, hps]
        rfl
      · simp only [List.length_cons, hlen]
        have := ceil_div_step hM (T - c) (by omega)
        have e3 : T - (c + min M (T - c)) = (T - c) - min M (T - c) := by omega
        rw [e3]
        omega

/-- Claim C1 (amended): with unlimited TX FIFO space, for a transfer of
total size `T` and max packet size `M > 0` starting at `txcnt = 0`,
`otg_txfifo_handler` pushes exactly `⌈T/M⌉ = (T + M - 1)/M` packets and
returns `TRUE`; in particular for `T = 0` it pushes no packet at all —
the zero-length packet is produced by the `PKTCNT(1) | XFRSIZ(0)`
transfer-size programming of `usb_lld_prepare_transmit`, not by a FIFO
push of the fill engine. -/
theorem txfifo_fill_completeness (T M : ℕ) (hM : 0 < M) :
    (otg_txfifo_handler M (fun _ => M + T) (T + 1) T 0).map
        (fun r => (r.1, r.2.1, r.2.2.length)) = some (true, T, (T + M - 1) / M) ∧
    usb_lld_prepare_transmit 0 M = (1, 0) := by
  obtain ⟨ps, hps, hlen⟩ := txfifo_unlimited M hM (T + 1) T 0 (by omega) (by omega)
  constructor
  · rw [hps]
    simp [hlen]
  · simp [usb_lld_prepare_transmit]

theorem txfifo_fill_completeness_witness :
    (otg_txfifo_handler 64 (fun _ => 64 + 130) (130 + 1) 130 0).map
        (fun r => (r.1, r.2.1, r.2.2.length)) = some (true, 130, (130 + 64 - 1) / 64) ∧
    usb_lld_prepare_transmit 0 64 = (1, 0) :=
  txfifo_fill_completeness 130 64 (by decide)

/-- Counterexample to claim C1 as stated: for a transfer of total size
`T = 0` with `M = 64` and unlimited FIFO space, `otg_txfifo_handler`
returns `TRUE` having performed zero FIFO pushes — there is no run that
performs the claimed "exactly 1 zero-length push". -/
theorem txfifo_zero_size_no_push :
    ¬ ∃ ps : List ℕ, otg_txfifo_handler 64 (fun _ => 1000) 1 0 0 = some (true, 0, ps) ∧
      ps.length = 1 := by
  rintro ⟨ps, h1, h2⟩
  have h0 : otg_txfifo_handler 64 (fun _ => 1000) 1 0 0 = some (true, 0, ([] : List ℕ)) := rfl
  rw [h0] at h1
  have hps : ps = [] := by simpa using h1.symm
  rw [hps] at h2
  simp at h2

theorem txfifo_false_inv (M : ℕ) : ∀ (fuel : ℕ) (f : ℕ → ℕ) (T c c2 : ℕ) (ps : List ℕ),
    otg_txfifo_handler M f fuel T c = some (false, c2, ps) →
    c2 = c + ps.sum ∧ c2 < T ∧ f ps.length * 4 < min M (T - c2) := by
  intro fuel
  induction fuel with
  | zero => intro f T c c2 ps h; simp [otg_txfifo_handler] at h
  | succ fuel ih =>
    intro f T c c2 ps h
    rcases le_or_lt T c with hc | hc
    · rw [txfifo_step_done hc] at h
      simp at h
    · by_cases hf : f 0 * 4 < min M (T - c)
      · rw [txfifo_step_nospace (by omega) hf] at h
        simp only [Option.some.injEq, Prod.mk.injEq] at h
        obtain ⟨-, h2, h3⟩ := h
        subst h2; subst h3
        exact ⟨by simp, hc, by simpa using hf⟩
      · rw [txfifo_step_push (by omega) hf] at h
        rcases hrec : otg_txfifo_handler M (fun k => f (k + 1)) fuel T
            (c + min M (T - c)) with _ | ⟨d, c3, ps3⟩
        · rw [hrec] at h; simp at h
        · rw [hrec] at h
          simp only [Option.map_some', Option.some.injEq, Prod.mk.injEq] at h
          obtain ⟨hd, hc3, hps⟩ := h
          subst hd
          obtain ⟨e1, e2, e3⟩ := ih (fun k => f (k + 1)) T (c + min M (T - c)) c3 ps3 hrec
          subst hc3; subst hps
          refine ⟨by simp [e1]; omega, e2, ?_⟩
          simpa using e3

theorem txfifo_true_ge (M : ℕ) : ∀ (fuel : ℕ) (f : ℕ → ℕ) (T c c2 : ℕ) (ps : List ℕ),
    otg_txfifo_handler M f fuel T c = some (true, c2, ps) → T ≤ c2 := by
  intro fuel
  induction fuel with
  | zero => intro f T c c2 ps h; simp [otg_txfifo_handler] at h
  | succ fuel ih =>
    intro f T c c2 ps h
    rcases le_or_lt T c with hc | hc
    · rw [txfifo_step_done hc] at h
      simp only [Option.some.injEq, Prod.mk.injEq] at h
      omega
    · by_cases hf : f 0 * 4 < min M (T - c)
      · rw [txfifo_step_nospace (by omega) hf] at h
        simp at h
      · rw [txfifo_step_push (by omega) hf] at h
        rcases hrec : otg_txfifo_handler M (fun k => f (k + 1)) fuel T
            (c + min M (T - c)) with _ | ⟨d, c3, ps3⟩
        · rw [hrec] at h; simp at h
        · rw [hrec] at h
          simp only [Option.map_some', Option.some.injEq, Prod.mk.injEq] at h
          obtain ⟨hd, hc3, -⟩ := h
          subst hd
          have := ih (fun k => f (k + 1)) T (c + min M (T - c)) c3 ps3 hrec
          omega

/-- Claim C7: the fill engine invoked with bytes still remaining and
insufficient reported TX FIFO free space for the next packet
(`free words * 4 < min maxsize remaining`) returns `FALSE` immediately
with no push; any `FALSE` return leaves `txcnt` advanced exactly by the
packets already pushed, still short of the total, with the last space
check having failed; and a `TRUE` return happens only with `txcnt` at
(or beyond) the total transfer size. -/
theorem txfifo_insufficient_space (M : ℕ) (f : ℕ → ℕ) (fuel T c : ℕ) :
    (0 < fuel → c < T → f 0 * 4 < min M (T - c) →
        otg_txfifo_handler M f fuel T c = some (false, c, [])) ∧
    (∀ c2 ps, otg_txfifo_handler M f fuel T c = some (false, c2, ps) →
        c2 = c + ps.sum ∧ c2 < T ∧ f ps.length * 4 < min M (T - c2)) ∧
    (∀ c2 ps, otg_txfifo_handler M f fuel T c = some (true, c2, ps) → T ≤ c2) := by
  refine ⟨?_, fun c2 ps h => txfifo_false_inv M fuel f T c c2 ps h,
    fun c2 ps h => txfifo_true_ge M fuel f T c c2 ps h⟩
  intro hfuel hc hf
  rcases fuel with _ | fuel
  · omega
  · exact txfifo_step_nospace (by omega) hf

theorem txfifo_insufficient_space_witness :
    otg_txfifo_handler 64 (fun _ => 2) 5 100 0 = some (false, 0, []) ∧
    (0 : ℕ) = 0 + ([] : List ℕ).sum ∧
    (100 : ℕ) ≤ 100 := by
  refine ⟨(txfifo_insufficient_space 64 (fun _ => 2) 5 100 0).1 (by decide) (by decide)
      (by decide), ?_, ?_⟩
  · exact ((txfifo_insufficient_space 64 (fun _ => 2) 5 100 0).2.1 0 [] (by decide)).1
  · exact (txfifo_insufficient_space 64 (fun _ => 1000) 3 100 100).2.2 100 [] (by decide)

/-- Claim C8: in any run of the fill engine, a pushed packet of size `s`
with `0 < s < M` can only occur as the very last push, at the moment the
transferred-byte count reaches the total transfer size: for every such
push, the starting `txcnt` plus the packet sizes pushed up to and
including it equals `txsize`. -/
theorem txfifo_short_packet_final (M : ℕ) (f : ℕ → ℕ) (fuel : ℕ) : ∀ (T c : ℕ) (d : Bool)
    (c2 : ℕ) (ps : List ℕ), otg_txfifo_handler M f fuel T c = some (d, c2, ps) →
    ∀ i (hi : i < ps.length), 0 < ps.get ⟨i, hi⟩ → ps.get ⟨i, hi⟩ < M →
      c + (ps.take (i + 1)).sum = T := by
  induction fuel generalizing f with
  | zero => intro T c d c2 ps h; simp [otg_txfifo_handler] at h
  | succ fuel ih =>
    intro T c d c2 ps h i hi hpos hlt
    rcases le_or_lt T c with hc | hc
    · rw [txfifo_step_done hc] at h
      simp only [Option.some.injEq, Prod.mk.injEq] at h
      obtain ⟨-, -, hps⟩ := h
      subst hps
      simp at hi
    · by_cases hf : f 0 * 4 < min M (T - c)
      · rw [txfifo_step_nospace (by omega) hf] at h
        simp only [Option.some.injEq, Prod.mk.injEq] at h
        obtain ⟨-, -, hps⟩ := h
        subst hps
        simp at hi
      · rw [txfifo_step_push (by omega) hf] at h
        rcases hrec : otg_txfifo_handler M (fun k => f (k + 1)) fuel T
            (c + min M (T - c)) with _ | ⟨d3, c3, ps3⟩
        · rw [hrec] at h; simp at h
        · rw [hrec] at h
          simp only [Option.map_some', Option.some.injEq, Prod.mk.injEq] at h
          obtain ⟨-, -, hps⟩ := h
          subst hps
          rcases i with _ | j
          · simp only [List.get] at hpos hlt
            have : min M (T - c) = T - c := by omega
            simp only [List.take_succ_cons, List.take_zero, List.sum_cons, List.sum_nil]
            omega
          · have hj : j < ps3.length := by simpa using hi
            have := ih (fun k => f (k + 1)) T (c + min M (T - c)) d3 c3 ps3 hrec j hj
              (by simpa using hpos) (by simpa using hlt)
            simp only [List.take_succ_cons, List.sum_cons]
            omega

theorem txfifo_short_packet_final_witness :
    (0 : ℕ) + (([4, 2] : List ℕ).take 2).sum = 6 :=
  txfifo_short_packet_final 4 (fun _ => 100) 10 6 0 true 6 [4, 2] (by decide) 1
    (by decide) (by decide) (by decide)

/-! ## RX FIFO to linear buffer -/

theorem read_to_buffer_go_spec (stream : ℕ → ℕ) : ∀ (nw maxw k : ℕ) (out : List ℕ),
    read_to_buffer_go stream nw maxw k out =
      (out ++ ((List.range (min nw maxw)).map (fun j => ubytes (stream (k + j)) 0 4)).flatten,
        k + nw) := by
  intro nw
  induction nw with
  | zero => intro maxw k out; simp [read_to_buffer_go]
  | succ nw ih =>
    intro maxw k out
    rcases maxw with _ | maxw
    · rw [read_to_buffer_go]
      simp only [if_neg (by omega : ¬ (0 : ℕ) < 0)]
      rw [ih]
      simp only [Nat.min_zero, List.range_zero, List.map_nil, List.flatten_nil,
        List.append_nil, Prod.mk.injEq]
      exact ⟨trivial, by omega⟩
    · rw [read_to_buffer_go]
      simp only [if_pos (by omega : (0 : ℕ) < maxw + 1)]
      rw [ih]
      rw [Nat.succ_min_succ nw maxw, List.range_succ_eq_map]
      simp only [List.map_cons, List.flatten_cons, List.map_map, Nat.add_zero,
        List.append_assoc, Prod.mk.injEq]
      refine ⟨?_, by omega⟩
      congr 1
      congr 1
      congr 1
      apply List.map_congr_left
      intro a _
      simp only [Function.comp]
      rw [show k + 1 + a = k + (a + 1) from by omega]

/-- Claim C6 (amended): `otg_fifo_read_to_buffer` pops exactly
`⌈n/4⌉ = (n+3)/4` words from the RX FIFO regardless of the destination
capacity (fully draining the packet even when `max < n`), and copies the
first `min ⌈n/4⌉ ⌈max/4⌉` popped words — whole words, i.e. up to `max`
rounded up to a word boundary bytes, not exactly the first `max`
bytes — into the destination, discarding the remaining popped words. -/
theorem read_to_buffer_drain_and_copy (stream : ℕ → ℕ) (n mx : ℕ) :
    otg_fifo_read_to_buffer stream n mx =
      (((List.range (min ((n + 3) / 4) ((mx + 3) / 4))).map
          (fun k => ubytes (stream k) 0 4)).flatten, (n + 3) / 4) := by
  unfold otg_fifo_read_to_buffer
  rw [read_to_buffer_go_spec]
  simp

/-- Counterexample to claim C6 as stated: with a packet of `n = 8` bytes
and destination capacity `max = 5`, the routine writes 8 bytes into the
destination buffer (two whole words), not "only the first max bytes"
(which would be 5). -/
theorem read_to_buffer_writes_past_max :
    ((otg_fifo_read_to_buffer (fun _ => 0) 8 5).1.length = 8) ∧
    ¬ ((otg_fifo_read_to_buffer (fun _ => 0) 8 5).1.length = 5) := by
  constructor <;> decide

/-! ## Circular queue helper lemmas -/

theorem wrapInc_eq {len : ℕ} (p : ℕ) (h : p < len) : wrapInc len p = (p + 1) % len := by
  unfold wrapInc
  rcases Nat.lt_or_ge (p + 1) len with h1 | h1
  · rw [if_neg (by omega), Nat.mod_eq_of_lt h1]
  · have e : p + 1 = len := by omega
    rw [if_pos (by omega), e, Nat.mod_self]

theorem wrapInc_lt {len : ℕ} (p : ℕ) (h : 0 < len) : wrapInc len p < len := by
  unfold wrapInc
  split <;> omega

theorem getD_lt_of_forall {buf : List ℕ} (h : ∀ b ∈ buf, b < 256) (n : ℕ) :
    buf.getD n 0 < 256 := by
  rcases Nat.lt_or_ge n buf.length with h1 | h1
  · refine h _ ?_
    rw [List.getD_eq_getElem?_getD, List.getElem?_eq_getElem h1]
    exact List.getElem_mem h1
  · rw [List.getD_eq_getElem?_getD, List.getElem?_eq_none h1]
    simp

theorem modBytes_length (buf : List ℕ) (rd k : ℕ) : (modBytes buf rd k).length = k := by
  simp [modBytes]

theorem modBytes_zero (buf : List ℕ) (rd : ℕ) : modBytes buf rd 0 = [] := by
  simp [modBytes]

theorem modBytes_lt {buf : List ℕ} (h : ∀ b ∈ buf, b < 256) (rd k : ℕ) :
    ∀ b ∈ modBytes buf rd k, b < 256 := by
  intro b hb
  simp only [modBytes, List.mem_map, List.mem_range] at hb
  obtain ⟨j, -, hj⟩ := hb
  rw [← hj]
  exact getD_lt_of_forall h _

theorem modBytes_succ (buf : List ℕ) (rd m : ℕ) (h : rd < buf.length) :
    modBytes buf rd (m + 1) =
      buf.getD rd 0 :: modBytes buf ((rd + 1) % buf.length) m := by
  unfold modBytes
  rw [List.range_succ_eq_map]
  simp only [List.map_cons, List.map_map, Nat.add_zero, Nat.mod_eq_of_lt h]
  congr 1
  apply List.map_congr_left
  intro a _
  simp only [Function.comp]
  rw [Nat.mod_add_mod]
  congr 2
  omega

theorem modBytes_add (buf : List ℕ) (rd a b : ℕ) :
    modBytes buf rd (a + b) =
      modBytes buf rd a ++ modBytes buf ((rd + a) % buf.length) b := by
  unfold modBytes
  rw [List.range_add, List.map_append]
  congr 1
  rw [List.map_map]
  apply List.map_congr_left
  intro j _
  simp only [Function.comp]
  rw [Nat.mod_add_mod]
  congr 2
  omega

theorem contigBytes_length (buf : List ℕ) (off k : ℕ) : (contigBytes buf off k).length = k := by
  simp [contigBytes]

theorem contigBytes_add (buf : List ℕ) (off a b : ℕ) :
    contigBytes buf off (a + b) = contigBytes buf off a ++ contigBytes buf (off + a) b := by
  unfold contigBytes
  rw [List.range_add, List.map_append]
  congr 1
  rw [List.map_map]
  apply List.map_congr_left
  intro j _
  simp only [Function.comp]
  rw [show off + (a + j) = off + a + j from by omega]

theorem modBytes_eq_contig (buf : List ℕ) (rd k : ℕ) (h : rd + k ≤ buf.length) :
    modBytes buf rd k = contigBytes buf rd k := by
  unfold modBytes contigBytes
  apply List.map_congr_left
  intro j hj
  rw [List.mem_range] at hj
  rw [Nat.mod_eq_of_lt (by omega)]

theorem packWords_nil : packWords [] = [] := by rw [packWords]

theorem packWords_cons (b : ℕ) (bs : List ℕ) :
    packWords (b :: bs) = packBytes (b :: bs.take 3) :: packWords (bs.drop 3) := by
  rw [packWords]

theorem packWords_append_four (bs cs : List ℕ) (h : bs.length = 4) :
    packWords (bs ++ cs) = packBytes bs :: packWords cs := by
  match bs, h with
  | [b0, b1, b2, b3], _ =>
    rw [List.cons_append, packWords_cons]
    simp [List.take, List.drop]

theorem packWords_append_mul4 : ∀ (s : ℕ) (bs cs : List ℕ), bs.length = 4 * s →
    packWords (bs ++ cs) = packWords bs ++ packWords cs := by
  intro s
  induction s with
  | zero =>
    intro bs cs h
    have : bs = [] := List.eq_nil_of_length_eq_zero (by omega)
    subst this
    simp [packWords_nil]
  | succ s ih =>
    intro bs cs h
    have h4 : (bs.take 4).length = 4 := by
      rw [List.length_take]
      omega
    have hdec : bs = bs.take 4 ++ bs.drop 4 := (List.take_append_drop 4 bs).symm
    rw [hdec, List.append_assoc,
      packWords_append_four _ _ h4, packWords_append_four _ _ h4,
      ih (bs.drop 4) cs (by rw [List.length_drop]; omega)]
    rfl

theorem packWords_short (bs : List ℕ) (h0 : bs ≠ []) (h4 : bs.length ≤ 4) :
    packWords bs = [packBytes bs] := by
  match bs, h0 with
  | b :: rest, _ =>
    rw [packWords_cons]
    have h3 : rest.length ≤ 3 := by
      simp only [List.length_cons] at h4
      omega
    rw [List.take_of_length_le h3, List.drop_eq_nil_of_le h3, packWords_nil]

theorem lorBytes_eq (bs : List ℕ) : ∀ (i : ℕ), (∀ b ∈ bs, b < 256) →
    lorBytes i bs = packBytes bs * 2 ^ (8 * i) := by
  induction bs with
  | nil => intro i _; simp [lorBytes, packBytes]
  | cons b bs ih =>
    intro i h256
    have hb : b < 256 := h256 b (by simp)
    rw [lorBytes, ih (i + 1) (fun x hx => h256 x (by simp [hx]))]
    have e1 : packBytes bs * 2 ^ (8 * (i + 1)) = (packBytes bs) <<< (8 * (i + 1)) := by
      rw [Nat.shiftLeft_eq]
    rw [e1, lor_shiftLeft_eq_add (packBytes bs) (8 * (i + 1))
      (by
        rw [Nat.shiftLeft_eq]
        have e2 : 8 * (i + 1) = 8 * i + 8 := by omega
        rw [e2, pow_add]
        have : (2 : ℕ) ^ 8 = 256 := by norm_num
        calc b * 2 ^ (8 * i) < 256 * 2 ^ (8 * i) := by
              have hp : 0 < 2 ^ (8 * i) := Nat.two_pow_pos _
              exact Nat.mul_lt_mul_of_lt_of_le hb (le_refl _) hp
          _ = 2 ^ (8 * i) * 2 ^ 8 := by rw [this]; ring)]
    rw [Nat.shiftLeft_eq]
    have e2 : 8 * (i + 1) = 8 * i + 8 := by omega
    rw [e2, pow_add]
    have e3 : (2 : ℕ) ^ 8 = 256 := by norm_num
    rw [e3, packBytes]
    ring

theorem oq_byte_go_spec (buf : List ℕ) : ∀ (k i rd ntogo w : ℕ), i + k = 4 →
    rd < buf.length →
    oq_byte_go buf rd ntogo i w =
      ((rd + min k ntogo) % buf.length, ntogo - min k ntogo,
        w ||| lorBytes i (modBytes buf rd (min k ntogo))) := by
  intro k
  induction k with
  | zero =>
    intro i rd ntogo w hi hrd
    rcases ntogo with _ | n
    · rw [oq_byte_go]
      simp [modBytes_zero, lorBytes, Nat.mod_eq_of_lt hrd]
    · rw [oq_byte_go, if_neg (by omega : ¬ i < 4)]
      simp [modBytes_zero, lorBytes, Nat.mod_eq_of_lt hrd]
  | succ k ihk =>
    intro i rd ntogo w hi hrd
    rcases ntogo with _ | n
    · rw [oq_byte_go]
      simp [modBytes_zero, lorBytes, Nat.mod_eq_of_lt hrd]
    · have hi4 : i < 4 := by omega
      have hlen : 0 < buf.length := by omega
      rw [oq_byte_go, if_pos hi4,
        ihk (i + 1) (wrapInc buf.length rd) n (w ||| (buf.getD rd 0 <<< (8 * i)))
          (by omega) (wrapInc_lt rd hlen),
        wrapInc_eq rd hrd, Nat.succ_min_succ]
      simp only [Prod.mk.injEq]
      refine ⟨?_, by omega, ?_⟩
      · rw [Nat.mod_add_mod]
        have e : rd + 1 + min k n = rd + (min k n + 1) := by omega
        rw [e]
      · rw [modBytes_succ buf rd (min k n) hrd, lorBytes, Nat.lor_assoc]

theorem streak_words_eq (buf : List ℕ) : ∀ (s rd : ℕ), rd + 4 * s ≤ buf.length →
    (List.range s).map (fun j => packBytes (contigBytes buf (rd + 4 * j) 4)) =
      packWords (contigBytes buf rd (4 * s)) := by
  intro s
  induction s with
  | zero => intro rd _; simp [contigBytes, packWords_nil]
  | succ s ih =>
    intro rd h
    rw [List.range_succ_eq_map, List.map_cons, List.map_map]
    have e1 : 4 * (s + 1) = 4 + 4 * s := by omega
    rw [e1, contigBytes_add buf rd 4 (4 * s),
      packWords_append_four _ _ (contigBytes_length buf rd 4)]
    congr 1
    rw [← ih (rd + 4) (by omega)]
    apply List.map_congr_left
    intro a _
    simp only [Function.comp, Nat.succ_eq_add_one]
    rw [show rd + 4 * (a + 1) = rd + 4 + 4 * a from by omega]

theorem oq_write_step_zero (buf : List ℕ) (fuel rd : ℕ) (ws : List ℕ) :
    oq_write_go buf (fuel + 1) rd 0 ws = some (rd, ws) := by
  rw [oq_write_go]
  simp

theorem oq_write_step_continue (buf : List ℕ) (fuel rd ntogo : ℕ) (ws : List ℕ)
    (h0 : ¬ ntogo = 0) (h4 : 0 < ntogo / 4)
    (hw : buf.length ≤ rd + 4 * min (ntogo / 4) ((buf.length - rd) / 4)) :
    oq_write_go buf (fuel + 1) rd ntogo ws =
      oq_write_go buf fuel 0 (ntogo - (min (ntogo / 4) ((buf.length - rd) / 4)) * 4)
        (ws ++ (List.range (min (ntogo / 4) ((buf.length - rd) / 4))).map
          (fun j => packBytes (contigBytes buf (rd + 4 * j) 4))) := by
  rw [oq_write_go]
  simp only [if_neg h0, if_pos h4, if_pos hw]

theorem oq_write_step_break (buf : List ℕ) (fuel rd ntogo : ℕ) (ws : List ℕ)
    (h0 : ¬ ntogo = 0) (h4 : 0 < ntogo / 4)
    (hw : ¬ buf.length ≤ rd + 4 * min (ntogo / 4) ((buf.length - rd) / 4))
    (hz : ntogo - (min (ntogo / 4) ((buf.length - rd) / 4)) * 4 = 0) :
    oq_write_go buf (fuel + 1) rd ntogo ws =
      some (rd + 4 * min (ntogo / 4) ((buf.length - rd) / 4),
        ws ++ (List.range (min (ntogo / 4) ((buf.length - rd) / 4))).map
          (fun j => packBytes (contigBytes buf (rd + 4 * j) 4))) := by
  rw [oq_write_go]
  simp only [if_neg h0, if_pos h4, if_neg hw, if_pos hz]

theorem oq_write_step_byte (buf : List ℕ) (fuel rd ntogo : ℕ) (ws : List ℕ)
    (h0 : ¬ ntogo = 0) (h4 : 0 < ntogo / 4)
    (hw : ¬ buf.length ≤ rd + 4 * min (ntogo / 4) ((buf.length - rd) / 4))
    (hz : ¬ ntogo - (min (ntogo / 4) ((buf.length - rd) / 4)) * 4 = 0) :
    oq_write_go buf (fuel + 1) rd ntogo ws =
      oq_write_go buf fuel
        (oq_byte_go buf (rd + 4 * min (ntogo / 4) ((buf.length - rd) / 4))
          (ntogo - (min (ntogo / 4) ((buf.length - rd) / 4)) * 4) 0 0).1
        (oq_byte_go buf (rd + 4 * min (ntogo / 4) ((buf.length - rd) / 4))
          (ntogo - (min (ntogo / 4) ((buf.length - rd) / 4)) * 4) 0 0).2.1
        ((ws ++ (List.range (min (ntogo / 4) ((buf.length - rd) / 4))).map
            (fun j => packBytes (contigBytes buf (rd + 4 * j) 4))) ++
          [(oq_byte_go buf (rd + 4 * min (ntogo / 4) ((buf.length - rd) / 4))
            (ntogo - (min (ntogo / 4) ((buf.length - rd) / 4)) * 4) 0 0).2.2]) := by
  rw [oq_write_go]
  simp only [if_neg h0, if_pos h4, if_neg hw, if_neg hz]

theorem oq_write_step_small (buf : List ℕ) (fuel rd ntogo : ℕ) (ws : List ℕ)
    (h0 : ¬ ntogo = 0) (h4 : ¬ 0 < ntogo / 4) :
    oq_write_go buf (fuel + 1) rd ntogo ws =
      oq_write_go buf fuel (oq_byte_go buf rd ntogo 0 0).1
        (oq_byte_go buf rd ntogo 0 0).2.1 (ws ++ [(oq_byte_go buf rd ntogo 0 0).2.2]) := by
  rw [oq_write_go]
  simp only [if_neg h0, if_neg h4]

theorem oq_write_go_spec (buf : List ℕ) (h256 : ∀ b ∈ buf, b < 256) :
    ∀ (fuel ntogo rd : ℕ) (ws : List ℕ), ntogo < fuel → rd < buf.length →
    oq_write_go buf fuel rd ntogo ws =
      some ((rd + ntogo) % buf.length, ws ++ packWords (modBytes buf rd ntogo)) := by
  intro fuel
  induction fuel with
  | zero => intro ntogo rd ws h _; omega
  | succ fuel ih =>
    intro ntogo rd ws hfuel hrd
    by_cases h0 : ntogo = 0
    · subst h0
      rw [oq_write_step_zero, Nat.add_zero, Nat.mod_eq_of_lt hrd, modBytes_zero,
        packWords_nil, List.append_nil]
    · by_cases h4 : 0 < ntogo / 4
      · have hnt4 : 4 ≤ ntogo := by omega
        set s := min (ntogo / 4) ((buf.length - rd) / 4) with hs
        have hs4 : 4 * s ≤ ntogo := by omega
        have hsle : 4 * s ≤ buf.length - rd := by omega
        have hsw := streak_words_eq buf s rd (by omega)
        have hsplit := modBytes_add buf rd (4 * s) (ntogo - 4 * s)
        rw [show 4 * s + (ntogo - 4 * s) = ntogo from by omega] at hsplit
        have hcontig := modBytes_eq_contig buf rd (4 * s) (by omega)
        by_cases hw : buf.length ≤ rd + 4 * s
        · -- the read cursor reached q_top: wrap to the base and continue
          have heq : rd + 4 * s = buf.length := by omega
          have hs1 : 0 < s := by omega
          rw [oq_write_step_continue buf fuel rd ntogo ws h0 h4 (by rw [← hs]; omega),
            ← hs, ih (ntogo - s * 4) 0 _ (by omega) (by omega)]
          rw [hsplit, heq, Nat.mod_self] at *
          rw [packWords_append_mul4 s _ _ (by rw [hcontig, contigBytes_length]),
            hcontig, ← hsw]
          rw [show ntogo - s * 4 = ntogo - 4 * s from by omega]
          rw [show rd + ntogo = buf.length + (ntogo - 4 * s) from by omega,
            Nat.add_mod_left, Nat.zero_add, List.append_assoc]
        · have hrd1 : rd + 4 * s < buf.length := by omega
          by_cases hz : ntogo - s * 4 = 0
          · -- whole words consumed everything before the wrap boundary
            rw [oq_write_step_break buf fuel rd ntogo ws h0 h4 (by rw [← hs]; omega)
              (by rw [← hs]; omega), ← hs]
            have hnt : ntogo = 4 * s := by omega
            rw [show (rd + ntogo) % buf.length = rd + 4 * s from by
                rw [hnt, Nat.mod_eq_of_lt hrd1]]
            rw [hnt, hcontig, ← hsw]
          · -- partial word or boundary split: one byte at a time
            have hnz : 0 < ntogo - s * 4 := by omega
            have hbspec := oq_byte_go_spec buf 4 0 (rd + 4 * s) (ntogo - s * 4) 0
              (by omega) hrd1
            set m := min 4 (ntogo - s * 4) with hm
            have hm1 : 0 < m := by omega
            rw [oq_write_step_byte buf fuel rd ntogo ws h0 h4 (by rw [← hs]; omega)
              (by rw [← hs]; omega), ← hs, hbspec]
            simp only [Nat.zero_or]
            have hlor : lorBytes 0 (modBytes buf (rd + 4 * s) m) =
                packBytes (modBytes buf (rd + 4 * s) m) := by
              rw [lorBytes_eq _ 0 (modBytes_lt h256 _ _)]
              simp
            rw [hlor, ih (ntogo - s * 4 - m) (((rd + 4 * s) + m) % buf.length) _
              (by omega) (Nat.mod_lt _ (by omega))]
            have hsplit2 := modBytes_add buf (rd + 4 * s) m (ntogo - s * 4 - m)
            rw [show m + (ntogo - s * 4 - m) = ntogo - 4 * s from by omega] at hsplit2
            have e2 : (rd + 4 * s) % buf.length = rd + 4 * s := Nat.mod_eq_of_lt hrd1
            rw [e2] at hsplit
            rw [hsplit, hsplit2]
            rw [packWords_append_mul4 s _ _ (by rw [hcontig, contigBytes_length]),
              hcontig, ← hsw]
            simp only [Prod.mk.injEq, Option.some.injEq]
            constructor
            · rw [Nat.mod_add_mod,
                show rd + 4 * s + m + (ntogo - s * 4 - m) = rd + ntogo from by omega]
            · rcases Nat.lt_or_ge (ntogo - s * 4) 4 with hsm | hsm
              · have hme : m = ntogo - s * 4 := by omega
                have hc0 : ntogo - s * 4 - m = 0 := by omega
                have hshort := packWords_short (modBytes buf (rd + 4 * s) m)
                  (by
                    intro hcon
                    have hlc := congrArg List.length hcon
                    simp only [modBytes_length, List.length_nil] at hlc
                    omega)
                  (by simp only [modBytes_length]; omega)
                rw [hc0, modBytes_zero]
                simp [hshort, packWords_nil]
              · have hme : m = 4 := by omega
                rw [packWords_append_four _ _ (by rw [modBytes_length, hme])]
                simp
      · -- fewer than four bytes remain in total: byte loop only
        have hnt : ntogo < 4 := by omega
        have hbspec := oq_byte_go_spec buf 4 0 rd ntogo 0 (by omega) hrd
        have hmm : min 4 ntogo = ntogo := by omega
        rw [oq_write_step_small buf fuel rd ntogo ws h0 h4, hbspec, hmm]
        simp only [Nat.zero_or, Nat.sub_self]
        have hlor : lorBytes 0 (modBytes buf rd ntogo) =
            packBytes (modBytes buf rd ntogo) := by
          rw [lorBytes_eq _ 0 (modBytes_lt h256 _ _)]
          simp
        have hshort := packWords_short (modBytes buf rd ntogo)
          (by
            intro hcon
            have hlc := congrArg List.length hcon
            simp only [modBytes_length, List.length_nil] at hlc
            omega)
          (by simp only [modBytes_length]; omega)
        rw [hlor, ih 0 ((rd + ntogo) % buf.length) _ (by omega)
          (Nat.mod_lt _ (by omega)), Nat.add_zero, Nat.mod_eq_of_lt
          (Nat.mod_lt _ (by omega : 0 < buf.length)), modBytes_zero]
        simp [hshort, packWords_nil]

theorem ubytes_zero (w i : ℕ) : ubytes w i 0 = [] := by simp [ubytes]

theorem ubytes_succ (w i m : ℕ) :
    ubytes w i (m + 1) = ((w >>> (8 * i)) % 256) :: ubytes w (i + 1) m := by
  unfold ubytes
  rw [List.range_succ_eq_map, List.map_cons, List.map_map]
  congr 1
  apply List.map_congr_left
  intro a _
  simp only [Function.comp, Nat.succ_eq_add_one]
  rw [show i + (a + 1) = i + 1 + a from by omega]

theorem iq_byte_go_spec (w : ℕ) : ∀ (k i : ℕ) (buf : List ℕ) (wr ntogo : ℕ), i + k = 4 →
    iq_byte_go w buf wr ntogo i =
      ((writeWrapP buf wr (ubytes w i (min k ntogo))).1,
        (writeWrapP buf wr (ubytes w i (min k ntogo))).2,
        ntogo - min k ntogo) := by
  intro k
  induction k with
  | zero =>
    intro i buf wr ntogo hi
    rcases ntogo with _ | n
    · rw [iq_byte_go]
      simp [ubytes_zero, writeWrapP]
    · rw [iq_byte_go, if_neg (by omega : ¬ i < 4)]
      simp [ubytes_zero, writeWrapP]
  | succ k ihk =>
    intro i buf wr ntogo hi
    rcases ntogo with _ | n
    · rw [iq_byte_go]
      simp [ubytes_zero, writeWrapP]
    · have hi4 : i < 4 := by omega
      rw [iq_byte_go, if_pos hi4,
        ihk (i + 1) (buf.set wr ((w >>> (8 * i)) % 256)) (wrapInc buf.length wr) n
          (by omega),
        Nat.succ_min_succ, ubytes_succ, writeWrapP]
      simp only [Prod.mk.injEq]
      exact ⟨trivial, trivial, by omega⟩

theorem writeWrapP_append : ∀ (as bs buf : List ℕ) (wr : ℕ),
    writeWrapP buf wr (as ++ bs) =
      writeWrapP (writeWrapP buf wr as).1 (writeWrapP buf wr as).2 bs := by
  intro as
  induction as with
  | nil => intro bs buf wr; rfl
  | cons a as ih =>
    intro bs buf wr
    rw [List.cons_append, writeWrapP, writeWrapP]
    exact ih bs _ _

theorem writeWrapP_length : ∀ (bs buf : List ℕ) (wr : ℕ),
    (writeWrapP buf wr bs).1.length = buf.length := by
  intro bs
  induction bs with
  | nil => intro buf wr; rfl
  | cons b bs ih =>
    intro buf wr
    rw [writeWrapP, ih]
    simp

theorem writeWrapP_cursor : ∀ (bs buf : List ℕ) (wr : ℕ), wr < buf.length →
    (writeWrapP buf wr bs).2 = (wr + bs.length) % buf.length := by
  intro bs
  induction bs with
  | nil => intro buf wr h; simp [writeWrapP, Nat.mod_eq_of_lt h]
  | cons b bs ih =>
    intro buf wr h
    have hlen : 0 < buf.length := by omega
    rw [writeWrapP, ih _ _ (by simp [List.length_set]; exact wrapInc_lt wr hlen)]
    simp only [List.length_set, List.length_cons]
    rw [wrapInc_eq wr h, Nat.mod_add_mod,
      show wr + 1 + bs.length = wr + (bs.length + 1) from by omega]

theorem unpackStream_zero (stream : ℕ → ℕ) : unpackStream stream 0 = [] := by
  rw [unpackStream]
  simp

theorem unpackStream_pos (stream : ℕ → ℕ) (n : ℕ) (h : n ≠ 0) :
    unpackStream stream n =
      ubytes (stream 0) 0 (min 4 n) ++ unpackStream (fun j => stream (j + 1)) (n - min 4 n) := by
  rw [unpackStream, if_neg h]

theorem iq_read_step_zero (stream : ℕ → ℕ) (fuel : ℕ) (buf : List ℕ) (wr k : ℕ) :
    iq_read_go stream (fuel + 1) buf wr 0 k = some (buf, wr, k) := by
  rw [iq_read_go]
  simp

theorem iq_read_step_word (stream : ℕ → ℕ) (fuel : ℕ) (buf : List ℕ) (wr ntogo k : ℕ)
    (h0 : ¬ ntogo = 0) (h4 : 0 < ntogo / 4) (hwr : ¬ buf.length ≤ wr) :
    iq_read_go stream (fuel + 1) buf wr ntogo k =
      iq_read_go stream fuel (iq_byte_go (stream k) buf wr ntogo 0).1
        (iq_byte_go (stream k) buf wr ntogo 0).2.1
        (iq_byte_go (stream k) buf wr ntogo 0).2.2 (k + 1) := by
  rw [iq_read_go]
  simp only [if_neg h0, if_pos h4, Nat.sub_self, Nat.zero_div, Nat.min_zero, do_pop_mem,
    Nat.zero_mul, Nat.sub_zero, if_neg hwr, if_neg h0]

theorem iq_read_step_small (stream : ℕ → ℕ) (fuel : ℕ) (buf : List ℕ) (wr ntogo k : ℕ)
    (h0 : ¬ ntogo = 0) (h4 : ¬ 0 < ntogo / 4) :
    iq_read_go stream (fuel + 1) buf wr ntogo k =
      iq_read_go stream fuel (iq_byte_go (stream k) buf wr ntogo 0).1
        (iq_byte_go (stream k) buf wr ntogo 0).2.1
        (iq_byte_go (stream k) buf wr ntogo 0).2.2 (k + 1) := by
  rw [iq_read_go]
  simp only [if_neg h0, if_neg h4]

theorem iq_read_go_spec (stream : ℕ → ℕ) : ∀ (fuel ntogo : ℕ) (buf : List ℕ) (wr k : ℕ),
    ntogo < fuel → wr < buf.length →
    iq_read_go stream fuel buf wr ntogo k =
      some ((writeWrapP buf wr (unpackStream (fun j => stream (k + j)) ntogo)).1,
        (writeWrapP buf wr (unpackStream (fun j => stream (k + j)) ntogo)).2,
        k + (ntogo + 3) / 4) := by
  intro fuel
  induction fuel with
  | zero => intro ntogo buf wr k h _; omega
  | succ fuel ih =>
    intro ntogo buf wr k hfuel hwr
    by_cases h0 : ntogo = 0
    · subst h0
      rw [iq_read_step_zero, unpackStream_zero]
      rfl
    · have hlen : 0 < buf.length := by omega
      have hstep : iq_read_go stream (fuel + 1) buf wr ntogo k =
          iq_read_go stream fuel (iq_byte_go (stream k) buf wr ntogo 0).1
            (iq_byte_go (stream k) buf wr ntogo 0).2.1
            (iq_byte_go (stream k) buf wr ntogo 0).2.2 (k + 1) := by
        by_cases h4 : 0 < ntogo / 4
        · exact iq_read_step_word stream fuel buf wr ntogo k h0 h4 (by omega)
        · exact iq_read_step_small stream fuel buf wr ntogo k h0 h4
      have hbspec := iq_byte_go_spec (stream k) 4 0 buf wr ntogo (by omega)
      set m := min 4 ntogo with hm
      have hm1 : 0 < m := by omega
      set p := writeWrapP buf wr (ubytes (stream k) 0 m) with hp
      have hplen : p.1.length = buf.length := writeWrapP_length _ _ _
      have hpcur : p.2 < p.1.length := by
        rw [hplen, writeWrapP_cursor _ _ _ hwr]
        exact Nat.mod_lt _ hlen
      rw [hstep, hbspec, ih (ntogo - m) p.1 p.2 (k + 1) (by omega) hpcur]
      have hsplitu : unpackStream (fun j => stream (k + j)) ntogo =
          ubytes (stream k) 0 m ++
            unpackStream (fun j => stream (k + 1 + j)) (ntogo - m) := by
        rw [unpackStream_pos _ _ h0]
        congr 1
        rw [← hm]
        have he : (fun j : ℕ => stream (k + (j + 1))) = fun j => stream (k + 1 + j) := by
          funext j
          rw [show k + (j + 1) = k + 1 + j from by omega]
        exact congrArg (fun f => unpackStream f (ntogo - m)) he
      rw [hsplitu, writeWrapP_append]
      simp only [Prod.mk.injEq, Option.some.injEq]
      exact ⟨trivial, trivial, by omega⟩

theorem unpack_single (w n : ℕ) (h1 : 0 < n) (h2 : n ≤ 4) :
    unpackStream (fun k => ([w] : List ℕ).getD k 0) n = ubytes w 0 n := by
  rw [unpackStream_pos _ _ (by omega)]
  have hmin : min 4 n = n := by omega
  rw [hmin, Nat.sub_self, unpackStream_zero, List.append_nil]
  rfl

theorem ubytes_extract (b0 b1 b2 b3 : ℕ) (h0 : b0 < 256) (h1 : b1 < 256) (h2 : b2 < 256)
    (h3 : b3 < 256) (m : ℕ) (hm : m ≤ 4) :
    ubytes (packBytes [b0, b1, b2, b3]) 0 m = List.take m [b0, b1, b2, b3] := by
  have e : packBytes [b0, b1, b2, b3] = b0 + 256 * b1 + 65536 * b2 + 16777216 * b3 := by
    simp [packBytes]
    ring
  interval_cases m <;>
    simp [ubytes_succ, ubytes_zero, e, Nat.shiftRight_eq_div_pow] <;>
    omega

theorem unpack_pack : ∀ (n : ℕ) (bs : List ℕ), bs.length = n → (∀ b ∈ bs, b < 256) →
    unpackStream (fun k => (packWords bs).getD k 0) n = bs := by
  intro n
  induction n using Nat.strong_induction_on with
  | _ n ih =>
    intro bs hlen h256
    rcases bs with _ | ⟨b0, bs1⟩
    · simp at hlen
      subst hlen
      exact unpackStream_zero _
    · rcases bs1 with _ | ⟨b1, bs2⟩
      · simp at hlen
        subst hlen
        have hb0 : b0 < 256 := h256 _ (by simp)
        have hw : packWords [b0] = [packBytes [b0]] := by
          rw [packWords_cons]
          simp [packWords_nil]
        rw [hw, unpack_single _ 1 (by omega) (by omega)]
        have hpad : packBytes [b0] = packBytes [b0, 0, 0, 0] := by simp [packBytes]
        rw [hpad, ubytes_extract b0 0 0 0 hb0 (by omega) (by omega) (by omega) 1 (by omega)]
        simp
      · rcases bs2 with _ | ⟨b2, bs3⟩
        · simp at hlen
          subst hlen
          have hb0 : b0 < 256 := h256 _ (by simp)
          have hb1 : b1 < 256 := h256 _ (by simp)
          have hw : packWords [b0, b1] = [packBytes [b0, b1]] := by
            rw [packWords_cons]
            simp [packWords_nil]
          rw [hw, unpack_single _ 2 (by omega) (by omega)]
          have hpad : packBytes [b0, b1] = packBytes [b0, b1, 0, 0] := by simp [packBytes]
          rw [hpad, ubytes_extract b0 b1 0 0 hb0 hb1 (by omega) (by omega) 2 (by omega)]
          simp
        · rcases bs3 with _ | ⟨b3, bs4⟩
          · simp at hlen
            subst hlen
            have hb0 : b0 < 256 := h256 _ (by simp)
            have hb1 : b1 < 256 := h256 _ (by simp)
            have hb2 : b2 < 256 := h256 _ (by simp)
            have hw : packWords [b0, b1, b2] = [packBytes [b0, b1, b2]] := by
              rw [packWords_cons]
              simp [packWords_nil]
            rw [hw, unpack_single _ 3 (by omega) (by omega)]
            have hpad : packBytes [b0, b1, b2] = packBytes [b0, b1, b2, 0] := by
              simp [packBytes]
            rw [hpad, ubytes_extract b0 b1 b2 0 hb0 hb1 hb2 (by omega) 3 (by omega)]
            simp
          · -- at least four bytes: b0 :: b1 :: b2 :: b3 :: bs4
            have hb0 : b0 < 256 := h256 _ (by simp)
            have hb1 : b1 < 256 := h256 _ (by simp)
            have hb2 : b2 < 256 := h256 _ (by simp)
            have hb3 : b3 < 256 := h256 _ (by simp)
            have hlen4 : n = bs4.length + 4 := by
              simp at hlen
              omega
            subst hlen4
            have hw : packWords (b0 :: b1 :: b2 :: b3 :: bs4) =
                packBytes [b0, b1, b2, b3] :: packWords bs4 := by
              rw [packWords_cons]
              simp
            rw [unpackStream_pos _ _ (by omega), hw,
              show min 4 (bs4.length + 4) = 4 from by omega]
            have he : (fun j : ℕ =>
                (packBytes [b0, b1, b2, b3] :: packWords bs4).getD (j + 1) 0) =
                fun j => (packWords bs4).getD j 0 := by
              funext j
              simp
            have htail : unpackStream (fun j =>
                (packBytes [b0, b1, b2, b3] :: packWords bs4).getD (j + 1) 0)
                (bs4.length + 4 - 4) = bs4 := by
              rw [he, show bs4.length + 4 - 4 = bs4.length from by omega]
              exact ih bs4.length (by omega) bs4 rfl
                (fun b hb => h256 b (by simp [hb]))
            rw [htail]
            have hhead : ubytes ((packBytes [b0, b1, b2, b3] :: packWords bs4).getD 0 0)
                0 4 = [b0, b1, b2, b3] := by
              simp only [List.getD_cons_zero]
              rw [ubytes_extract b0 b1 b2 b3 hb0 hb1 hb2 hb3 4 (by omega)]
              simp
            rw [hhead]
            simp

/-- Claim C2: round-trip law.  For every output-queue state (any
capacity, any read cursor — including within 3 bytes of the physical
end) and every transfer length `n` (any alignment),
`otg_fifo_write_from_queue` moves the `n` bytes at the read cursor onto
the FIFO as packed words and advances the cursor mod the capacity; over
the mirrored word stream, `otg_fifo_read_to_queue` deposits exactly the
original byte sequence at the input queue's write cursor (wrapping), and
the unpacked stream equals that original sequence. -/
theorem queue_roundtrip (oqp : OutputQueue) (iqp : InputQueue) (n : ℕ)
    (hrd : oqp.rd < oqp.buf.length) (h256 : ∀ b ∈ oqp.buf, b < 256)
    (hwr : iqp.wr < iqp.buf.length) :
    otg_fifo_write_from_queue oqp n =
      some (⟨oqp.buf, (oqp.rd + n) % oqp.buf.length, oqp.counter + n, []⟩,
        packWords (modBytes oqp.buf oqp.rd n), oqp.waiting.map (fun t => (t, Q_OK))) ∧
    unpackStream (fun k => (packWords (modBytes oqp.buf oqp.rd n)).getD k 0) n =
      modBytes oqp.buf oqp.rd n ∧
    otg_fifo_read_to_queue (fun k => (packWords (modBytes oqp.buf oqp.rd n)).getD k 0)
        iqp n =
      some (⟨(writeWrapP iqp.buf iqp.wr (modBytes oqp.buf oqp.rd n)).1,
        (writeWrapP iqp.buf iqp.wr (modBytes oqp.buf oqp.rd n)).2,
        iqp.counter + n, []⟩, (n + 3) / 4, iqp.waiting.map (fun t => (t, Q_OK))) := by
  have hup := unpack_pack n (modBytes oqp.buf oqp.rd n) (modBytes_length _ _ _)
    (modBytes_lt h256 _ _)
  refine ⟨?_, hup, ?_⟩
  · unfold otg_fifo_write_from_queue
    rw [oq_write_go_spec oqp.buf h256 (n + 1) n oqp.rd [] (by omega) hrd]
    simp
  · unfold otg_fifo_read_to_queue
    rw [iq_read_go_spec _ (n + 1) n iqp.buf iqp.wr 0 (by omega) hwr]
    have hs : unpackStream (fun j =>
        (fun k : ℕ => (packWords (modBytes oqp.buf oqp.rd n)).getD k 0) (0 + j)) n =
        modBytes oqp.buf oqp.rd n := by
      rw [show (fun j : ℕ =>
          (fun k : ℕ => (packWords (modBytes oqp.buf oqp.rd n)).getD k 0) (0 + j)) =
          fun k : ℕ => (packWords (modBytes oqp.buf oqp.rd n)).getD k 0 from by
        funext j
        simp]
      exact hup
    rw [hs]
    simp

theorem queue_roundtrip_witness :
    otg_fifo_write_from_queue ⟨[5, 6, 7, 8, 9], 3, 100, [42]⟩ 6 =
      some (⟨[5, 6, 7, 8, 9], (3 + 6) % ([5, 6, 7, 8, 9] : List ℕ).length, 100 + 6, []⟩,
        packWords (modBytes [5, 6, 7, 8, 9] 3 6),
        ([42] : List ℕ).map (fun t => (t, Q_OK))) ∧
    unpackStream (fun k => (packWords (modBytes [5, 6, 7, 8, 9] 3 6)).getD k 0) 6 =
      modBytes [5, 6, 7, 8, 9] 3 6 ∧
    otg_fifo_read_to_queue (fun k => (packWords (modBytes [5, 6, 7, 8, 9] 3 6)).getD k 0)
        ⟨[0, 0, 0, 0, 0, 0, 0], 5, 50, [9]⟩ 6 =
      some (⟨(writeWrapP [0, 0, 0, 0, 0, 0, 0] 5 (modBytes [5, 6, 7, 8, 9] 3 6)).1,
        (writeWrapP [0, 0, 0, 0, 0, 0, 0] 5 (modBytes [5, 6, 7, 8, 9] 3 6)).2,
        50 + 6, []⟩, (6 + 3) / 4, ([9] : List ℕ).map (fun t => (t, Q_OK))) := by
  exact queue_roundtrip ⟨[5, 6, 7, 8, 9], 3, 100, [42]⟩ ⟨[0, 0, 0, 0, 0, 0, 0], 5, 50, [9]⟩
    6 (by decide) (by decide) (by decide)

/-- Claim C3: in `otg_fifo_read_to_queue` the words-until-wrap value is
`(q_wrptr - q_wrptr) / 4 = 0`, so the whole-word burst path never
transfers a word, and on every valid queue state and length the routine
is observationally equivalent — same final buffer, write cursor, byte
counter, words popped and wake list — to the pure byte-at-a-time copy
loop `read_to_queue_bytewise`. -/
theorem read_to_queue_bytewise_equiv (stream : ℕ → ℕ) (iqp : InputQueue) (n : ℕ)
    (hwr : iqp.wr < iqp.buf.length) :
    otg_fifo_read_to_queue stream iqp n = some (read_to_queue_bytewise stream iqp n) := by
  unfold otg_fifo_read_to_queue read_to_queue_bytewise
  rw [iq_read_go_spec stream (n + 1) n iqp.buf iqp.wr 0 (by omega) hwr]
  have he : (fun j : ℕ => stream (0 + j)) = stream := by
    funext j
    simp
  rw [he]
  simp

theorem read_to_queue_bytewise_equiv_witness :
    otg_fifo_read_to_queue (fun k => 1000 + k) ⟨[0, 0, 0], 2, 7, [4]⟩ 5 =
      some (read_to_queue_bytewise (fun k => 1000 + k) ⟨[0, 0, 0], 2, 7, [4]⟩ 5) :=
  read_to_queue_bytewise_equiv (fun k => 1000 + k) ⟨[0, 0, 0], 2, 7, [4]⟩ 5 (by decide)

/-- Claim C9: for every requested byte count `n`, including `n = 0`,
`otg_fifo_write_from_queue` increments the queue's byte counter by
exactly `n`, leaves the waiting list empty, and wakes every previously
waiting task with the success message `Q_OK`. -/
theorem write_from_queue_counter_wakeup (oqp : OutputQueue) (n : ℕ)
    (hrd : oqp.rd < oqp.buf.length) (h256 : ∀ b ∈ oqp.buf, b < 256) :
    (otg_fifo_write_from_queue oqp n).map (fun r => (r.1.counter, r.1.waiting, r.2.2)) =
      some (oqp.counter + n, ([] : List ℕ), oqp.waiting.map (fun t => (t, Q_OK))) := by
  unfold otg_fifo_write_from_queue
  rw [oq_write_go_spec oqp.buf h256 (n + 1) n oqp.rd [] (by omega) hrd]
  simp

theorem write_from_queue_counter_wakeup_witness :
    (otg_fifo_write_from_queue ⟨[1, 2, 3, 4], 1, 7, [3, 4]⟩ 0).map
        (fun r => (r.1.counter, r.1.waiting, r.2.2)) =
      some (7 + 0, ([] : List ℕ), ([3, 4] : List ℕ).map (fun t => (t, Q_OK))) := by
  exact write_from_queue_counter_wakeup ⟨[1, 2, 3, 4], 1, 7, [3, 4]⟩ 0 (by decide)
    (by decide)
